import Mathlib

/-!
Verification development for the asynchronous DNN inference pipeline of the
ffmpeg `dnn_processing3` filter stack:

* `libavfilter/dnn/dnn_interface.c` — the `FFBaseInference` engine
  (`ff_dnn_interface_send_frame`, `ff_dnn_interface_get_frame`,
  `ff_dnn_interface_frame_queue_empty`, `PushOutput`,
  `InferenceCompletionCallback`);
* `libavfilter/dnn/dnn_backend_openvino.c` — the OpenVINO backend
  (`ff_dnn_execute_model_async_batch_ov`, `completion_callback_batch_infer`,
  `ff_dnn_flush_ov`, `ff_dnn_get_async_result_ov`, the request-context pool);
* the filter adapter (`flush_frame`, `activate`, `check_modelinput_inlink`).

The embedding is shallow: C structs become Lean structures, the shared mutable
`ProcessingFrame` objects become entries of an append-only store addressed by
numeric ids, and the thread interleavings permitted by the mutexes become a
small-step transition system over the engine state.  Data-plane tensor
contents are abstracted by an opaque deterministic inference function
`infer : AVFrame → AVFrame` (the backend network), and post-processing
failure by an `Option`-valued variant.
-/

namespace FfmpegDnn

/-- An `AVFrame` abstracted to the fields the control plane inspects: the
presentation timestamp and an opaque payload identifying the pixel data. -/
structure AVFrame where
  pts : Int
  payload : Nat
deriving DecidableEq, Repr

/-- `ProcessingFrame` from `dnn_interface.h` / `dnn_backend_openvino.c`:
the in-flight bookkeeping record linking an input frame to its pending
output.  `frame_out = none` models the NULL pointer. -/
structure ProcessingFrame where
  frame_in : AVFrame
  frame_out : Option AVFrame
  inference_done : Bool
deriving DecidableEq, Repr

/-- Default used for out-of-range store lookups (never reached under the
invariants proved below). -/
def pfDefault : ProcessingFrame := ⟨⟨0, 0⟩, none, false⟩

instance : Inhabited ProcessingFrame := ⟨pfDefault⟩

/-- Error codes: `AVERROR(EINVAL)`, `AVERROR(EAGAIN)`, `AVERROR(EIO)`. -/
def avEINVAL : Int := -22

/-- Error code `AVERROR(EAGAIN)`. -/
def avEAGAIN : Int := -11

/-- Error code `AVERROR(EIO)`. -/
def avErrIo : Int := -5

/-- `DNNReturnType` from `dnn_interface.h`. -/
inductive DNNReturnType where
  | success
  | error
deriving DecidableEq, Repr

/-! ## The ordered in-flight list and its drain loop

`processing_frames` holds entry ids in submission order; `processed_frames`
holds the output frames (possibly NULL) already reassembled in order.
`drainLoop` is the while-loop shared by `PushOutput`
(`dnn_interface.c:171-184`) and `completion_callback_batch_infer`
(`dnn_backend_openvino.c:480-488`): it pops entries from the head of the
ordered list while their `inference_done` flag is set, appending each popped
entry's `frame_out` to the processed queue, and stops at the first entry that
is not done. -/

/-- Drain loop of `PushOutput` / `completion_callback_batch_infer`. -/
def drainLoop (entries : List ProcessingFrame) :
    List Nat → List (Option AVFrame) → List Nat × List (Option AVFrame)
  | [], processed => ([], processed)
  | id :: rest, processed =>
      if (entries.getD id pfDefault).inference_done then
        drainLoop entries rest (processed ++ [(entries.getD id pfDefault).frame_out])
      else (id :: rest, processed)

/-- State of the `FFBaseInference` engine (`dnn_interface.c`): the entry
store, the ordered in-flight list (`processing_frames`, as ids into the
store) and the processed-output queue (`processed_frames`). -/
structure BaseState where
  entries : List ProcessingFrame
  processing : List Nat
  processed : List (Option AVFrame)
deriving DecidableEq, Repr

/-- The freshly created engine state. -/
def baseInit : BaseState := ⟨[], [], []⟩

/-- `PushOutput` (`dnn_interface.c:171-184`) applied to the engine state. -/
def pushOutput (st : BaseState) : BaseState :=
  let r := drainLoop st.entries st.processing st.processed
  { st with processing := r.1, processed := r.2 }

/-- Mark entry `id` completed: store the produced output frame and set the
`inference_done` flag, leaving `frame_in` untouched. -/
def markEntry (es : List ProcessingFrame) (id : Nat) (fout : AVFrame) :
    List ProcessingFrame :=
  let e := es.getD id pfDefault
  es.set id { e with frame_out := some fout, inference_done := true }

/-- `InferenceCompletionCallback` (`dnn_interface.c:186-205`).  `post`
abstracts the model-specific `post_proc`: `none` models a nonzero return
(failure).  On failure the function logs and returns without touching the
entry; on success it stores the output, sets `inference_done` and runs
`PushOutput` under the mutex. -/
def inferenceCompletionCallback (post : AVFrame → Option AVFrame)
    (st : BaseState) (id : Nat) : BaseState :=
  match post ((st.entries.getD id pfDefault).frame_in) with
  | none => st
  | some fout => pushOutput { st with entries := markEntry st.entries id fout }

/-- `ff_dnn_interface_send_frame` (`dnn_interface.c:207-269`), asynchronous
branch.  The nullable pointer arguments become `Option`s.  After the NULL
checks the engine appends a fresh in-flight entry
(`frame_out = NULL`, `inference_done = 0`) to the ordered list and calls
`execute_model_async`; `dr` is that dispatch's result.  On failure the code
frees the input frame and returns `AVERROR(EIO)` — the appended entry is not
touched again. -/
def sendFrame (dr : DNNReturnType) (base : Option BaseState)
    (frame_in : Option AVFrame) : Int × Option BaseState :=
  match base, frame_in with
  | some b, some f =>
      let id := b.entries.length
      let b1 : BaseState :=
        { b with entries := b.entries ++ [⟨f, none, false⟩],
                 processing := b.processing ++ [id] }
      match dr with
      | .success => (0, some b1)
      | .error => (avErrIo, some b1)
  | _, _ => (avEINVAL, base)

/-- `ff_dnn_interface_get_frame` (`dnn_interface.c:271-283`).
`frameOutValid` models whether the `frame_out` out-pointer is non-NULL.  The
function returns `AVERROR(EAGAIN)` without popping when the processed queue
is empty or the out-pointer is NULL; otherwise it pops the front. -/
def getFrame (base : BaseState) (frameOutValid : Bool) :
    Int × BaseState × Option (Option AVFrame) :=
  match base.processed, frameOutValid with
  | [], _ => (avEAGAIN, base, none)
  | _ :: _, false => (avEAGAIN, base, none)
  | o :: rest, true => (0, { base with processed := rest }, some o)

/-- `ff_dnn_interface_frame_queue_empty` (`dnn_interface.c:285-299`).
Returns `AVERROR(EINVAL)` on a NULL base; in async mode it reports 1 iff
both the in-flight list and the processed queue are empty. -/
def frameQueueEmptyCall (base : Option BaseState) (asyncMode : Bool) : Int :=
  match base with
  | none => avEINVAL
  | some b =>
      if asyncMode then
        if b.processing.length + b.processed.length = 0 then 1 else 0
      else
        if b.processed.length = 0 then 1 else 0

/-! ## Configuration-time validation (`check_modelinput_inlink`) -/

/-- The pixel formats accepted at format negotiation (`query_formats`). -/
inductive AVPixelFormat where
  | rgb24 | bgr24 | gray8 | grayf32
  | yuv420p | yuv422p | yuv444p | yuv410p | yuv411p
deriving DecidableEq, Repr

/-- `DNNDataType` from `dnn_interface.h` (`DNN_FLOAT = 1`, `DNN_UINT8 = 4`). -/
inductive DNNDataType where
  | dnnFloat
  | dnnUint8
deriving DecidableEq, Repr

/-- The model-input descriptor (`DNNData` as filled by `get_input`): channel
count, fixed height/width (or `-1` for dynamic) and element type. -/
structure ModelInputDesc where
  channels : Int
  height : Int
  width : Int
  dt : DNNDataType
deriving DecidableEq, Repr

/-- `check_modelinput_inlink` (filter adapter, lines 211-271): validate the
configured inlink (format, height, width) against the model-input
descriptor; `0` on success, `AVERROR(EIO)` on mismatch. -/
def check_modelinput_inlink (mi : ModelInputDesc) (fmt : AVPixelFormat)
    (h w : Int) : Int :=
  if mi.height != -1 && mi.height != h then avErrIo
  else if mi.width != -1 && mi.width != w then avErrIo
  else
    match fmt with
    | .rgb24 | .bgr24 =>
        if mi.channels != 3 then avErrIo
        else if mi.dt != .dnnFloat && mi.dt != .dnnUint8 then avErrIo
        else 0
    | .gray8 =>
        if mi.channels != 1 then avErrIo
        else if mi.dt != .dnnUint8 then avErrIo
        else 0
    | .grayf32 | .yuv420p | .yuv422p | .yuv444p | .yuv410p | .yuv411p =>
        if mi.channels != 1 then avErrIo
        else if mi.dt != .dnnFloat then avErrIo
        else 0

/-- Channel count the spec's table requires for each input pixel format. -/
def channelsRequired : AVPixelFormat → Int
  | .rgb24 | .bgr24 => 3
  | _ => 1

/-- Element-type compatibility from the spec's table: RGB24/BGR24 accept
FLOAT32 or UINT8, GRAY8 requires UINT8, GRAYF32 and the YUV planar formats
require FLOAT32. -/
def dtCompatible : AVPixelFormat → DNNDataType → Bool
  | .rgb24, _ => true
  | .bgr24, _ => true
  | .gray8, dt => dt = .dnnUint8
  | _, dt => dt = .dnnFloat

/-- C6.  Configuration-time validation fails (returns a nonzero error)
exactly when the frame does not match the model-input descriptor: the
channel count mismatches, or the element type is incompatible (GRAY8 needs
UINT8, GRAYF32/YUV need FLOAT32, RGB24/BGR24 allow either), or a fixed model
height/width (not `-1`) differs from the frame's: `check_modelinput_inlink`
returns an error on these inputs and only on these. -/
theorem check_modelinput_inlink_iff (mi : ModelInputDesc)
    (fmt : AVPixelFormat) (h w : Int) :
    check_modelinput_inlink mi fmt h w ≠ 0 ↔
      (mi.channels ≠ channelsRequired fmt ∨
       dtCompatible fmt mi.dt = false ∨
       (mi.height ≠ -1 ∧ mi.height ≠ h) ∨
       (mi.width ≠ -1 ∧ mi.width ≠ w)) := by
  obtain ⟨c, mh, mw, dt⟩ := mi
  have hne : avErrIo ≠ 0 := by decide
  cases fmt <;> cases dt <;>
    simp only [check_modelinput_inlink, channelsRequired, dtCompatible] <;>
    split_ifs <;> simp_all <;> constructor <;> assumption

/-! ## Null-argument handling at the public engine interface (C10) -/

/-- C10.  Null arguments are rejected without touching the queues:
`ff_dnn_interface_send_frame` returns `AVERROR(EINVAL)` and leaves the state
unchanged whenever `base` or `frame_in` is NULL;
`ff_dnn_interface_frame_queue_empty` returns `AVERROR(EINVAL)` whenever
`base` is NULL; and `ff_dnn_interface_get_frame` returns `AVERROR(EAGAIN)`
without popping whenever the `frame_out` pointer is NULL or no processed
frame is queued. -/
theorem null_argument_handling :
    (∀ (dr : DNNReturnType) (base : Option BaseState)
       (frame : Option AVFrame), base = none ∨ frame = none →
         sendFrame dr base frame = (avEINVAL, base)) ∧
    (∀ asyncMode : Bool, frameQueueEmptyCall none asyncMode = avEINVAL) ∧
    (∀ (b : BaseState) (v : Bool), b.processed = [] ∨ v = false →
         getFrame b v = (avEAGAIN, b, none)) := by
  refine ⟨?_, ?_, ?_⟩
  · rintro dr base frame (rfl | rfl)
    · rfl
    · cases base <;> rfl
  · intro m; rfl
  · rintro b v (hb | rfl)
    · simp [getFrame, hb]
    · cases hp : b.processed <;> simp [getFrame, hp]

/-- C10 witness: concrete instances of the three null-argument behaviours,
obtained from `null_argument_handling`. -/
theorem null_argument_handling_witness :
    sendFrame .success none (some ⟨3, 7⟩) = (avEINVAL, none) ∧
    frameQueueEmptyCall none true = avEINVAL ∧
    getFrame baseInit true = (avEAGAIN, baseInit, none) :=
  ⟨null_argument_handling.1 .success none (some ⟨3, 7⟩) (Or.inl rfl),
   null_argument_handling.2.1 true,
   null_argument_handling.2.2 baseInit true (Or.inl rfl)⟩

/-! ## Dispatch-time error handling (C3)

When `execute_model_async` reports failure, `ff_dnn_interface_send_frame`
(`dnn_interface.c:252-256`) logs, frees the input frame and returns
`AVERROR(EIO)`.  Contrary to the spec, it does not mark the already-appended
in-flight entry done: the entry stays in `processing_frames` with
`inference_done = 0` and `frame_out = NULL`. -/

/-- A sample frame used by the concrete counterexamples. -/
def frameA : AVFrame := ⟨10, 1⟩

/-- C3 counterexample.  Submit a frame on a fresh engine with the dispatch
failing: `send_frame` returns `AVERROR(EIO)` and the in-flight entry it
appended is NOT marked done (its `done` flag is false and stays unobserved by
the drain), refuting the claim that entries of a failed dispatch are marked
done with a null output so that poll can skip past them. -/
theorem dispatch_error_not_marked_done_cex :
    (sendFrame .error (some baseInit) (some frameA)).1 = avErrIo ∧
    ((sendFrame .error (some baseInit) (some frameA)).2.getD baseInit).processing = [0] ∧
    (((sendFrame .error (some baseInit) (some frameA)).2.getD
        baseInit).entries.getD 0 pfDefault).inference_done = false := by
  refine ⟨rfl, rfl, rfl⟩

/-- C3 amended.  On a dispatch error, `ff_dnn_interface_send_frame` returns
`AVERROR(EIO)` (after freeing the input frame) and the in-flight entry
appended for the frame remains in `processing_frames` with its done flag
unset and a null output frame; nothing marks it done, so a later poll cannot
drain past it. -/
theorem dispatch_error_leaves_entry_undone (b : BaseState) (f : AVFrame) :
    sendFrame .error (some b) (some f) =
      (avErrIo, some { b with entries := b.entries ++ [⟨f, none, false⟩],
                              processing := b.processing ++ [b.entries.length] }) := by
  rfl

/-! ## Callback-time post-processing failure (C4)

In `InferenceCompletionCallback` (`dnn_interface.c:194-197`) — and likewise
in `completion_callback_batch_infer` (`dnn_backend_openvino.c:467-470`) — a
failing `post_proc` is logged and the callback returns at once: the entry's
`inference_done` flag is never set and no drain is performed. -/

/-- A one-entry engine state whose single in-flight entry is pending. -/
def cexStateC4 : BaseState := ⟨[⟨frameA, none, false⟩], [0], []⟩

/-- C4 counterexample.  A completion callback whose post-processing fails
leaves the entry's done flag false (and its output null): running
`InferenceCompletionCallback` with a failing `post_proc` on a concrete
one-entry state changes nothing, refuting the claim that the done flag is
still set to true on post-processing failure. -/
theorem postproc_failure_not_marked_done_cex :
    inferenceCompletionCallback (fun _ => none) cexStateC4 0 = cexStateC4 ∧
    ((inferenceCompletionCallback (fun _ => none) cexStateC4 0).entries.getD 0
        pfDefault).inference_done = false := by
  refine ⟨rfl, rfl⟩

/-- C4 amended.  When post-processing of an in-flight entry fails in the
completion callback, the error is logged and the callback returns
immediately without marking the entry: the engine state is unchanged, so the
entry keeps `done = false` and a null output frame and cannot be drained by
a later poll. -/
theorem postproc_failure_leaves_state (post : AVFrame → Option AVFrame)
    (st : BaseState) (id : Nat)
    (hfail : post ((st.entries.getD id pfDefault).frame_in) = none) :
    inferenceCompletionCallback post st id = st := by
  unfold inferenceCompletionCallback
  rw [hfail]

/-- C4 witness: the amended theorem applied at a concrete failing
post-processor and state. -/
theorem postproc_failure_leaves_state_witness :
    inferenceCompletionCallback (fun _ => none) cexStateC4 0 = cexStateC4 :=
  postproc_failure_leaves_state (fun _ => none) cexStateC4 0 rfl

/-! ## The filter adapter: `flush_frame` and the EOS path of `activate`

`flush_frame` (filter adapter, lines 573-599) loops while
`ff_dnn_interface_frame_queue_empty` is false, popping processed frames via
`ff_dnn_interface_get_frame`, forwarding each non-NULL frame downstream and
recording `*out_pts = output->pts + pts`, with a 5 ms sleep per iteration;
then it sets `already_flushed`.  If `already_flushed` is already set it
returns 0 immediately.  The loop's iterations are counted by `fuel`; a
`none` result means the loop was still spinning (waiting on completion
callbacks) after `fuel` iterations. -/

/-- Boolean form of the async-mode `ff_dnn_interface_frame_queue_empty`. -/
def frameQueueEmptyB (st : BaseState) : Bool :=
  st.processing.length + st.processed.length == 0

/-- The drain loop of `flush_frame`: `sent` accumulates the frames forwarded
downstream, `outPts` the running `*out_pts` value. -/
def flushLoop (pts : Int) : Nat → BaseState → List AVFrame → Int →
    Option (BaseState × List AVFrame × Int)
  | 0, _, _, _ => none
  | fuel + 1, st, sent, outPts =>
      if frameQueueEmptyB st then some (st, sent, outPts)
      else
        match st.processed with
        | [] => flushLoop pts fuel st sent outPts
        | none :: rest => flushLoop pts fuel { st with processed := rest } sent outPts
        | some f :: rest =>
            flushLoop pts fuel { st with processed := rest } (sent ++ [f]) (f.pts + pts)

/-- State of the `DnnProcessing3Context` relevant to flushing: the engine
state plus the `already_flushed` flag. -/
structure FilterState where
  base : BaseState
  already_flushed : Bool
deriving DecidableEq, Repr

/-- `flush_frame` (filter adapter, lines 573-599); returns the function's
result code together with the new filter state, the frames forwarded
downstream and the final `*out_pts` (which starts at `pts`, the caller's
initialisation in `activate`). -/
def flushFrame (fuel : Nat) (fs : FilterState) (pts : Int) :
    Option (Int × FilterState × List AVFrame × Int) :=
  if fs.already_flushed then some (0, fs, [], pts)
  else
    match flushLoop pts fuel fs.base [] pts with
    | none => none
    | some (st, sent, outPts) =>
        some (0, { base := st, already_flushed := true }, sent, outPts)

/-- The end-of-stream fragment of `activate` (filter adapter, lines
647-657): on an `AVERROR_EOF` status with timestamp `pts`, initialise
`out_pts := pts`, call `flush_frame` when in async mode, then propagate the
status downstream via `ff_outlink_set_status(outlink, status, out_pts)`.
The result carries the new filter state, the frames the flush forwarded
downstream, and the timestamp given to `ff_outlink_set_status`. -/
def activateEOS (fuel : Nat) (fs : FilterState) (isAsync : Bool)
    (pts : Int) : Option (FilterState × List AVFrame × Int) :=
  if isAsync then
    match flushFrame fuel fs pts with
    | none => none
    | some (_, fs2, sent, outPts) => some (fs2, sent, outPts)
  else some (fs, [], pts)

/-- Characterisation of a completed `flush_frame` drain loop: it can only
complete when the in-flight list is already empty, it empties the processed
queue, forwards exactly the non-NULL processed frames in order, and leaves
`*out_pts` at (last forwarded frame).pts + pts — or untouched if nothing was
forwarded. -/
theorem flushLoop_spec (pts : Int) :
    ∀ (fuel : Nat) (st : BaseState) (sent0 : List AVFrame) (op0 : Int)
      (st2 : BaseState) (sent : List AVFrame) (op : Int),
      flushLoop pts fuel st sent0 op0 = some (st2, sent, op) →
      st.processing = [] ∧
      st2 = { st with processed := [] } ∧
      sent = sent0 ++ st.processed.reduceOption ∧
      op = (match st.processed.reduceOption.getLast? with
            | some f => f.pts + pts
            | none => op0) := by
  intro fuel
  induction fuel with
  | zero =>
      intro st sent0 op0 st2 sent op h
      simp [flushLoop] at h
  | succ n ih =>
      intro st sent0 op0 st2 sent op h
      rw [flushLoop] at h
      by_cases he : frameQueueEmptyB st
      · have hp : st.processing = [] ∧ st.processed = [] := by
          constructor <;>
            · have := he
              simp only [frameQueueEmptyB, beq_iff_eq, Nat.add_eq_zero,
                List.length_eq_zero] at this
              tauto
        rw [if_pos he] at h
        obtain ⟨rfl, rfl, rfl⟩ := Option.some.inj h
        refine ⟨hp.1, ?_, ?_, ?_⟩
        · rw [← hp.2]
        · simp [hp.2]
        · simp [hp.2]
      · rw [if_neg he] at h
        cases hpr : st.processed with
        | nil =>
            rw [hpr] at h
            have hrec := ih st sent0 op0 st2 sent op h
            exact absurd (by simp [frameQueueEmptyB, hrec.1, hpr]) he
        | cons o rest =>
            cases o with
            | none =>
                rw [hpr] at h
                have hrec := ih { st with processed := rest } sent0 op0 st2 sent op h
                obtain ⟨h1, h2, h3, h4⟩ := hrec
                refine ⟨h1, ?_, ?_, ?_⟩
                · rw [h2]
                · rw [h3]; simp
                · rw [h4]; simp
            | some f =>
                rw [hpr] at h
                have hrec := ih { st with processed := rest } (sent0 ++ [f])
                  (f.pts + pts) st2 sent op h
                obtain ⟨h1, h2, h3, h4⟩ := hrec
                refine ⟨h1, ?_, ?_, ?_⟩
                · rw [h2]
                · rw [h3]; simp
                · rw [h4]
                  cases hro : rest.reduceOption with
                  | nil => simp [hro]
                  | cons g l =>
                      simp only [hro, List.reduceOption_cons_of_some,
                        List.getLast?_cons_cons]
                      cases hgl : (g :: l).getLast? with
                      | none =>
                          rw [List.getLast?_eq_none_iff] at hgl
                          exact absurd hgl (by simp)
                      | some x => rfl

/-- C5.  `flush` is idempotent: whenever a call to `flush_frame` completes,
the resulting state has `already_flushed` set, and every subsequent call to
`flush_frame` returns 0 immediately, forwards no frame downstream, leaves
the state unchanged and does not touch `*out_pts` — the `already_flushed`
guard, which is set at most once (only by a completing flush). -/
theorem flush_idempotent (fuel : Nat) (fs : FilterState) (pts r : Int)
    (fs2 : FilterState) (sent : List AVFrame) (op : Int)
    (h : flushFrame fuel fs pts = some (r, fs2, sent, op)) :
    fs2.already_flushed = true ∧
      ∀ (fuel2 : Nat) (pts2 : Int),
        flushFrame fuel2 fs2 pts2 = some (0, fs2, [], pts2) := by
  rw [flushFrame] at h
  by_cases hf : fs.already_flushed
  · rw [if_pos hf] at h
    obtain ⟨rfl, rfl, rfl, rfl⟩ := Option.some.inj h
    exact ⟨hf, fun fuel2 pts2 => by rw [flushFrame, if_pos hf]⟩
  · rw [if_neg hf] at h
    cases hl : flushLoop pts fuel fs.base [] pts with
    | none => rw [hl] at h; exact absurd h (by simp)
    | some v =>
        obtain ⟨st, sent1, op1⟩ := v
        rw [hl] at h
        obtain ⟨rfl, rfl, rfl, rfl⟩ := Option.some.inj h
        exact ⟨rfl, fun fuel2 pts2 => by rw [flushFrame]; rfl⟩

/-- C5 witness: a concrete completed flush on an idle engine, then the
idempotence conclusion instantiated at fresh fuel and timestamp. -/
theorem flush_idempotent_witness :
    flushFrame 5 ⟨baseInit, true⟩ 3 = some (0, ⟨baseInit, true⟩, [], 3) :=
  (flush_idempotent 2 ⟨baseInit, false⟩ 0 0 ⟨baseInit, true⟩ [] 0 rfl).2 5 3

/-- Frame used by the C7 counterexample: pts 5. -/
def frame5 : AVFrame := ⟨5, 2⟩

/-- Filter state for the C7 counterexample: one processed frame (pts 5)
waits in the queue, nothing in flight, not yet flushed. -/
def fsC7 : FilterState := ⟨⟨[], [], [some frame5]⟩, false⟩

/-- C7 counterexample.  On EOS with upstream timestamp 7 and one drained
frame of pts 5, `activate` propagates EOS downstream with timestamp
`5 + 7 = 12` (`*out_pts = output->pts + pts` in `flush_frame`), not with the
drained frame's pts 5 as the claim states. -/
theorem eos_pts_cex :
    activateEOS 3 fsC7 true 7 = some (⟨⟨[], [], []⟩, true⟩, [frame5], 12) ∧
    (12 : Int) ≠ 5 := by
  exact ⟨rfl, by decide⟩

/-- C7 amended.  On end-of-stream (async mode, not yet flushed), `activate`
calls `flush_frame`, which forwards exactly the non-NULL drained frames in
order, and then propagates end-of-stream with timestamp equal to the last
drained frame's pts PLUS the upstream end-of-stream timestamp — or the
upstream timestamp alone if no frame was drained.  (The flush can only
complete once the in-flight list is empty.) -/
theorem eos_propagation (fuel : Nat) (fs : FilterState) (pts : Int)
    (fs2 : FilterState) (sent : List AVFrame) (outPts : Int)
    (hflag : fs.already_flushed = false)
    (h : activateEOS fuel fs true pts = some (fs2, sent, outPts)) :
    fs.base.processing = [] ∧
    sent = fs.base.processed.reduceOption ∧
    fs2 = ⟨{ fs.base with processed := [] }, true⟩ ∧
    outPts = (match sent.getLast? with
              | some f => f.pts + pts
              | none => pts) := by
  rw [activateEOS, if_pos rfl, flushFrame, hflag] at h
  simp only [Bool.false_eq_true, if_false] at h
  cases hl : flushLoop pts fuel fs.base [] pts with
  | none => rw [hl] at h; exact absurd h (by simp)
  | some v =>
      obtain ⟨st, sent1, op1⟩ := v
      rw [hl] at h
      simp only [Option.some.injEq, Prod.mk.injEq] at h
      obtain ⟨hfs2, hsent, hop⟩ := h
      obtain ⟨h1, h2, h3, h4⟩ := flushLoop_spec pts fuel fs.base [] pts st sent1 op1 hl
      simp only [List.nil_append] at h3
      have hsent2 : sent = fs.base.processed.reduceOption := by rw [← hsent, h3]
      refine ⟨h1, hsent2, ?_, ?_⟩
      · rw [← hfs2, h2]
      · rw [← hop, h4, hsent2]

/-- C7 witness: the amended EOS-propagation theorem applied to the concrete
one-frame scenario (drained pts 5, upstream pts 7, propagated 12). -/
theorem eos_propagation_witness :
    fsC7.base.processing = [] ∧
    [frame5] = fsC7.base.processed.reduceOption ∧
    (⟨⟨[], [], []⟩, true⟩ : FilterState) = ⟨{ fsC7.base with processed := [] }, true⟩ ∧
    (12 : Int) = (match [frame5].getLast? with
                  | some f => f.pts + 7
                  | none => 7) :=
  eos_propagation 3 fsC7 7 ⟨⟨[], [], []⟩, true⟩ [frame5] 12 rfl rfl

/-! ## The OpenVINO request pool and batcher (`dnn_backend_openvino.c`)

The asynchronous batch pipeline: `ff_dnn_execute_model_async_batch_ov`
fills the head slot of the request FIFO and dispatches it when full;
`completion_callback_batch_infer` post-processes a dispatched slot's packed
entries on a backend worker thread, drains the ordered in-flight list and
returns the slot; `ff_dnn_flush_ov` dispatches the head slot even if only
partially filled; `ff_dnn_get_async_result_ov` pops the processed queue.
The mutexes (`frame_q_mutex`, `callback_mutex`, the internally locked
`SafeQueue`) make each of these four code regions atomic with respect to
the others, so the concurrent system is the set of interleavings of the
four steps below. -/

/-- `RequestContext` (`dnn_backend_openvino.c:34-43`) restricted to the
batching fields: `processing_frame_array` (capacity `batch_size`, holding
ids into the entry store, `none` for never-written cells) and
`num_processing_frames`. -/
structure RequestCtx where
  arr : List (Option Nat)
  cnt : Nat
deriving DecidableEq, Repr

/-- The packed entries of a slot: the ids the callback reads as
`processing_frame_array[b]` for `b < num_processing_frames`. -/
def packedIds (rc : RequestCtx) : List Nat :=
  (List.range rc.cnt).map fun b => (rc.arr.getD b none).getD 0

/-- State of the asynchronous OpenVINO engine: the entry store, the ordered
in-flight list (`processing_frames`, ids in submission order), the
processed-output queue (`processed_frames`), the trace of frames already
returned to the caller by `ff_dnn_get_async_result_ov` (`delivered`), the
request FIFO (`request_ctx_q`, head first) and the slots currently owned by
the backend with a callback pending (`dispatched`). -/
structure OVState where
  entries : List ProcessingFrame
  processing : List Nat
  processed : List (Option AVFrame)
  delivered : List (Option AVFrame)
  reqq : List RequestCtx
  dispatched : List RequestCtx
  batch_size : Nat
deriving DecidableEq, Repr

/-- Engine state right after `ff_dnn_load_model_ov`: `nireq` empty request
slots in the FIFO, batch capacity `bs`, empty queues. -/
def ovInit (nireq bs : Nat) : OVState :=
  { entries := [], processing := [], processed := [], delivered := [],
    reqq := List.replicate nireq ⟨List.replicate bs none, 0⟩,
    dispatched := [], batch_size := bs }

/-- `ff_dnn_execute_model_async_batch_ov` (lines 883-933).  The head slot of
the request FIFO is popped (`SafeQueuePop`; modelled from the spec as
blocking when the FIFO is empty, i.e. the step is disabled and yields
`none`); the frame is preprocessed into the batch position given by the
slot's counter (`_new_blob_by_batch_idx` at `num_processing_frames`); a
fresh in-flight entry is appended to the store and to the ordered list
(`_create_and_enqueue_processing_frame`), which also writes it into
`processing_frame_array[num_processing_frames++]`.  If the counter reaches
`batch_size` the slot is dispatched (`ie_infer_request_infer_async`),
otherwise it is pushed back to the FIFO front (`SafeQueuePushFront`). -/
def submitStep (s : OVState) (f : AVFrame) : Option OVState :=
  match s.reqq with
  | [] => none
  | rc :: rest =>
      let id := s.entries.length
      let entries := s.entries ++ [⟨f, none, false⟩]
      let processing := s.processing ++ [id]
      let rc2 : RequestCtx := ⟨rc.arr.set rc.cnt (some id), rc.cnt + 1⟩
      if rc2.cnt = s.batch_size then
        some { s with entries := entries, processing := processing,
                      reqq := rest, dispatched := s.dispatched ++ [rc2] }
      else
        some { s with entries := entries, processing := processing,
                      reqq := rc2 :: rest }

/-- Mark one packed entry completed: the callback's `post_proc` stores the
output frame built from the entry's batch slice of the output blob and the
entry's input frame, then sets `inference_done = 1`.  `infer` abstracts the
(deterministic) network and successful post-processing. -/
def markDone (infer : AVFrame → AVFrame) (es : List ProcessingFrame)
    (id : Nat) : List ProcessingFrame :=
  let e := es.getD id pfDefault
  es.set id { e with frame_out := some (infer e.frame_in), inference_done := true }

/-- Post-processing loop of `completion_callback_batch_infer` (lines
464-473), success path: every packed entry gets its output and done flag. -/
def markBatch (infer : AVFrame → AVFrame) (es : List ProcessingFrame)
    (ids : List Nat) : List ProcessingFrame :=
  ids.foldl (markDone infer) es

/-- `completion_callback_batch_infer` (lines 409-505) firing for the
dispatched slot at position `i`: post-process and mark done every packed
entry, drain the ordered-list head under `frame_q_mutex`, reset
`num_processing_frames` to 0 and push the slot back to the FIFO tail
(`SafeQueuePush`). -/
def callbackStep (infer : AVFrame → AVFrame) (s : OVState) (i : Nat) :
    Option OVState :=
  match s.dispatched[i]? with
  | none => none
  | some rc =>
      let entries := markBatch infer s.entries (packedIds rc)
      let r := drainLoop entries s.processing s.processed
      some { s with entries := entries, processing := r.1, processed := r.2,
                    reqq := s.reqq ++ [⟨rc.arr, 0⟩],
                    dispatched := s.dispatched.eraseIdx i }

/-- `ff_dnn_flush_ov` (lines 867-881): pop the head slot (blocking when the
FIFO is empty) and dispatch it even if partially filled. -/
def flushStep (s : OVState) : Option OVState :=
  match s.reqq with
  | [] => none
  | rc :: rest =>
      some { s with reqq := rest, dispatched := s.dispatched ++ [rc] }

/-- `ff_dnn_get_async_result_ov` (lines 988-1015): pop the front of the
processed queue if non-empty; `delivered` records the frames handed back to
the caller, in order. -/
def pollStep (s : OVState) : OVState :=
  match s.processed with
  | [] => s
  | o :: rest => { s with processed := rest, delivered := s.delivered ++ [o] }

/-- Events of the asynchronous engine: a submit from the filter thread, a
backend completion callback for the dispatched slot at position `i`, a
flush, and a poll. -/
inductive OVEvent where
  | submit (f : AVFrame)
  | callback (i : Nat)
  | flush
  | poll
deriving DecidableEq, Repr

/-- One interleaved step of the engine. -/
def ovStep (infer : AVFrame → AVFrame) (s : OVState) : OVEvent → Option OVState
  | .submit f => submitStep s f
  | .callback i => callbackStep infer s i
  | .flush => flushStep s
  | .poll => some (pollStep s)

/-- States reachable from `ovInit nireq bs` by any interleaving of events —
in particular by any completion order of the backend callbacks. -/
inductive OVReach (infer : AVFrame → AVFrame) (nireq bs : Nat) : OVState → Prop
  | init : OVReach infer nireq bs (ovInit nireq bs)
  | step {s e s2} : OVReach infer nireq bs s → ovStep infer s e = some s2 →
      OVReach infer nireq bs s2

/-- The ids packed in any slot, queued or dispatched. -/
def allPacked (s : OVState) : List Nat :=
  ((s.reqq ++ s.dispatched).map packedIds).flatten

/-- Number of entries already drained off the head of the ordered list. -/
def drainedCount (s : OVState) : Nat :=
  s.entries.length - s.processing.length

/-! ### Bookkeeping lemmas for the request slots and the entry store -/

/-- A slot packs exactly `cnt` entries (`packed_entries.len == count_counter`). -/
theorem packedIds_length (rc : RequestCtx) : (packedIds rc).length = rc.cnt := by
  simp [packedIds]

/-- A slot with counter 0 packs nothing. -/
theorem packedIds_zero (arr : List (Option Nat)) :
    packedIds ⟨arr, 0⟩ = [] := by
  simp [packedIds]

/-- Writing the fresh entry id at index `cnt` and incrementing the counter
appends the id to the packed list (the new entry lands at batch index
`cnt`). -/
theorem packedIds_fill (rc : RequestCtx) (id : Nat)
    (hc : rc.cnt < rc.arr.length) :
    packedIds ⟨rc.arr.set rc.cnt (some id), rc.cnt + 1⟩ =
      packedIds rc ++ [id] := by
  simp only [packedIds, List.range_succ, List.map_append, List.map_cons,
    List.map_nil]
  congr 1
  · apply List.map_congr_left
    intro b hb
    have hbne : rc.cnt ≠ b := by
      have := List.mem_range.mp hb; omega
    simp [List.getElem?_set_ne hbne]
  · simp [List.getElem?_set_self hc]

/-- Marking an entry preserves the store's length. -/
theorem markDone_length (infer : AVFrame → AVFrame) (es : List ProcessingFrame)
    (id : Nat) : (markDone infer es id).length = es.length := by
  simp [markDone]

/-- Marking an entry leaves the other entries untouched. -/
theorem markDone_getD_ne (infer : AVFrame → AVFrame) (es : List ProcessingFrame)
    (id j : Nat) (hne : j ≠ id) :
    (markDone infer es id).getD j pfDefault = es.getD j pfDefault := by
  simp [markDone, List.getElem?_set_ne (Ne.symm hne)]

/-- Marking an in-range entry stores its output and sets its done flag,
keeping its input frame. -/
theorem markDone_getD_self (infer : AVFrame → AVFrame)
    (es : List ProcessingFrame) (id : Nat) (hlt : id < es.length) :
    (markDone infer es id).getD id pfDefault =
      ⟨(es.getD id pfDefault).frame_in,
       some (infer ((es.getD id pfDefault).frame_in)), true⟩ := by
  simp [markDone, List.getElem?_set_self hlt]

/-- `markBatch` one-step unfolding. -/
theorem markBatch_cons (infer : AVFrame → AVFrame) (es : List ProcessingFrame)
    (a : Nat) (ids : List Nat) :
    markBatch infer es (a :: ids) = markBatch infer (markDone infer es a) ids := rfl

/-- The postprocessing loop preserves the store's length. -/
theorem markBatch_length (infer : AVFrame → AVFrame) (ids : List Nat) :
    ∀ es : List ProcessingFrame, (markBatch infer es ids).length = es.length := by
  induction ids with
  | nil => intro es; rfl
  | cons a ids ih =>
      intro es
      rw [markBatch_cons, ih, markDone_length]

/-- The postprocessing loop leaves entries outside the batch untouched. -/
theorem markBatch_getD_not_mem (infer : AVFrame → AVFrame) (ids : List Nat) :
    ∀ (es : List ProcessingFrame) (j : Nat), j ∉ ids →
      (markBatch infer es ids).getD j pfDefault = es.getD j pfDefault := by
  induction ids with
  | nil => intro es j _; rfl
  | cons a ids ih =>
      intro es j hj
      rw [markBatch_cons, ih _ _ (fun h => hj (List.mem_cons_of_mem a h)),
        markDone_getD_ne infer es a j (fun h => hj (h ▸ List.mem_cons_self a ids))]

/-- The postprocessing loop marks every packed entry done with the
network's output for that entry's input frame. -/
theorem markBatch_getD_mem (infer : AVFrame → AVFrame) (ids : List Nat) :
    ∀ (es : List ProcessingFrame) (j : Nat), ids.Nodup → j ∈ ids →
      j < es.length →
      (markBatch infer es ids).getD j pfDefault =
        ⟨(es.getD j pfDefault).frame_in,
         some (infer ((es.getD j pfDefault).frame_in)), true⟩ := by
  induction ids with
  | nil => intro es j _ hj _; cases hj
  | cons a ids ih =>
      intro es j hnd hj hlt
      rw [markBatch_cons]
      rcases List.mem_cons.mp hj with rfl | hj2
      · have hnot : j ∉ ids := (List.nodup_cons.mp hnd).1
        rw [markBatch_getD_not_mem infer ids _ _ hnot,
          markDone_getD_self infer es j hlt]
      · have hne : j ≠ a := fun h => (List.nodup_cons.mp hnd).1 (h ▸ hj2)
        rw [ih (markDone infer es a) j (List.nodup_cons.mp hnd).2 hj2
              (by rw [markDone_length]; exact hlt),
            markDone_getD_ne infer es a j hne]

/-- The drain loop on a block of consecutive ids: it pops some prefix of
`k` entries (all done), appending their outputs in order, and leaves the
rest of the range. -/
theorem drainLoop_range' (entries : List ProcessingFrame) :
    ∀ (p d : Nat) (processed : List (Option AVFrame)),
      ∃ k ≤ p,
        drainLoop entries (List.range' d p) processed =
          (List.range' (d + k) (p - k),
           processed ++ (List.range' d k).map
             (fun i => (entries.getD i pfDefault).frame_out)) ∧
        ∀ i, d ≤ i → i < d + k →
          (entries.getD i pfDefault).inference_done = true := by
  intro p
  induction p with
  | zero =>
      intro d processed
      exact ⟨0, Nat.le_refl 0, by simp [drainLoop],
        fun i h1 h2 => absurd h2 (by omega)⟩
  | succ p ih =>
      intro d processed
      rw [List.range'_succ]
      by_cases hdone : (entries.getD d pfDefault).inference_done
      · obtain ⟨k, hk, heq, hall⟩ :=
          ih (d + 1) (processed ++ [(entries.getD d pfDefault).frame_out])
        refine ⟨k + 1, by omega, ?_, ?_⟩
        · rw [drainLoop, if_pos hdone, heq]
          have e1 : d + 1 + k = d + (k + 1) := by omega
          have e2 : p - k = p + 1 - (k + 1) := by omega
          rw [e1, e2, List.range'_succ d k]
          simp
        · intro i hge hlt
          rcases Nat.eq_or_lt_of_le hge with heqi | hlti
          · rw [← heqi]; exact hdone
          · exact hall i hlti (by omega)
      · refine ⟨0, by omega, ?_, fun i h1 h2 => absurd h2 (by omega)⟩
        rw [drainLoop, if_neg hdone]
        simp [List.range'_succ]

/-- Indexing the first `d` entries of a store through `getD` is mapping
over its length-`d` prefix. -/
theorem map_range_getD {β : Type} (l : List ProcessingFrame) (d : Nat)
    (hd : d ≤ l.length) (f : ProcessingFrame → β) :
    (List.range d).map (fun i => f (l.getD i pfDefault)) = (l.take d).map f := by
  induction d with
  | zero => simp
  | succ d ih =>
      have hlt : d < l.length := by omega
      rw [List.range_succ, List.map_append, ih (by omega), List.take_succ]
      simp only [List.getElem?_eq_getElem hlt, List.getD_eq_getElem?_getD,
        Option.toList_some, Option.getD_some, List.map_append, List.map_cons,
        List.map_nil]

/-- A list is a permutation of any element pulled out in front of its
`eraseIdx`. -/
theorem getElem?_perm_eraseIdx {α : Type} (l : List α) (i : Nat) (a : α)
    (h : l[i]? = some a) : l.Perm (a :: l.eraseIdx i) := by
  obtain ⟨hlt, rfl⟩ := List.getElem?_eq_some_iff.mp h
  rw [List.eraseIdx_eq_take_drop_succ]
  conv_lhs => rw [← List.take_append_drop i l, List.drop_eq_getElem_cons hlt]
  exact List.perm_middle

/-! ### The engine invariant

The state invariant maintained by every interleaving of submit, callback,
flush and poll.  `drainedCount s` is the number of entries already
reassembled off the head of the ordered list. -/

/-- Invariant of the asynchronous engine (spec §3 invariants 1-4 as they
hold of the code). -/
structure OVInv (infer : AVFrame → AVFrame) (bs : Nat) (s : OVState) : Prop where
  bs_pos : 1 ≤ bs
  bs_eq : s.batch_size = bs
  proc_le : s.processing.length ≤ s.entries.length
  proc_ids : s.processing = List.range' (drainedCount s) s.processing.length
  out_eq : s.delivered ++ s.processed =
    (List.range (drainedCount s)).map
      (fun i => (s.entries.getD i pfDefault).frame_out)
  drained_done : ∀ i < drainedCount s,
    (s.entries.getD i pfDefault).inference_done = true
  done_out : ∀ i < s.entries.length,
    (s.entries.getD i pfDefault).inference_done = true →
    (s.entries.getD i pfDefault).frame_out =
      some (infer ((s.entries.getD i pfDefault).frame_in))
  reqq_slots : ∀ rc ∈ s.reqq, rc.arr.length = bs ∧ rc.cnt < bs
  disp_slots : ∀ rc ∈ s.dispatched, rc.arr.length = bs ∧ rc.cnt ≤ bs
  packed_lt : ∀ id ∈ allPacked s, id < s.entries.length
  packed_nodup : (allPacked s).Nodup
  packed_pending : ∀ id ∈ allPacked s,
    drainedCount s ≤ id ∧ (s.entries.getD id pfDefault).inference_done = false

/-- The invariant holds of the freshly loaded engine. -/
theorem ovInv_init (infer : AVFrame → AVFrame) (nireq bs : Nat)
    (hbs : 1 ≤ bs) : OVInv infer bs (ovInit nireq bs) := by
  have hpk : allPacked (ovInit nireq bs) = [] := by
    simp only [allPacked, ovInit, List.append_nil]
    induction nireq with
    | zero => rfl
    | succ n ih => simpa [List.replicate_succ, packedIds_zero] using ih
  refine ⟨hbs, rfl, ?_, ?_, ?_, ?_, ?_, ?_, ?_, ?_, ?_, ?_⟩ <;>
    simp_all [ovInit, drainedCount, hpk] <;> omega

/-- Poll preserves the invariant: it only moves the front of the processed
queue to the delivered trace. -/
theorem ovInv_poll (infer : AVFrame → AVFrame) (bs : Nat) (s : OVState)
    (inv : OVInv infer bs s) : OVInv infer bs (pollStep s) := by
  cases hp : s.processed with
  | nil =>
      have hps : pollStep s = s := by rw [pollStep, hp]
      rw [hps]; exact inv
  | cons o rest =>
      have hps : pollStep s =
          { s with processed := rest, delivered := s.delivered ++ [o] } := by
        rw [pollStep, hp]
      rw [hps]
      obtain ⟨i1, i2, i3, i4, i5, i6, i7, i8, i9, i10, i11, i12⟩ := inv
      rw [hp] at i5
      refine ⟨i1, i2, i3, i4, ?_, i6, i7, i8, i9, i10, i11, i12⟩
      rw [List.append_assoc]
      exact i5

/-- Flush preserves the invariant: the head slot moves from the FIFO to the
dispatched set unchanged. -/
theorem ovInv_flush (infer : AVFrame → AVFrame) (bs : Nat) (s s2 : OVState)
    (inv : OVInv infer bs s) (h : flushStep s = some s2) : OVInv infer bs s2 := by
  rw [flushStep] at h
  cases hq : s.reqq with
  | nil => rw [hq] at h; cases h
  | cons rc rest =>
      rw [hq] at h
      obtain ⟨i1, i2, i3, i4, i5, i6, i7, i8, i9, i10, i11, i12⟩ := inv
      have hslots : List.Perm (rest ++ (s.dispatched ++ [rc]))
          (s.reqq ++ s.dispatched) := by
        rw [hq]
        refine List.Perm.trans List.perm_append_comm ?_
        refine List.Perm.trans
          (List.Perm.append_right rest (List.perm_append_singleton rc s.dispatched)) ?_
        exact List.Perm.cons rc List.perm_append_comm
      have hperm : List.Perm
          (((rest ++ (s.dispatched ++ [rc])).map packedIds).flatten)
          (allPacked s) :=
        List.Perm.flatten (hslots.map packedIds)
      obtain rfl := Option.some.inj h
      refine ⟨i1, i2, i3, i4, i5, i6, i7, ?_, ?_, ?_, ?_, ?_⟩
      · intro rc2 hrc2
        exact i8 rc2 (by rw [hq]; exact List.mem_cons_of_mem rc hrc2)
      · intro rc2 hrc2
        rcases List.mem_append.mp hrc2 with hd | hs
        · exact i9 rc2 hd
        · have hm := i8 rc2
            (by rw [hq, List.mem_singleton.mp hs]; exact List.mem_cons_self rc rest)
          exact ⟨hm.1, Nat.le_of_lt hm.2⟩
      · intro id hid
        exact i10 id (hperm.mem_iff.mp hid)
      · exact i11.perm hperm.symm
      · intro id hid
        exact i12 id (hperm.mem_iff.mp hid)

/-- Store lookup below the old length is unchanged by appending. -/
theorem getD_append_left (l l2 : List ProcessingFrame) (i : Nat)
    (h : i < l.length) :
    (l ++ l2).getD i pfDefault = l.getD i pfDefault := by
  simp [List.getElem?_append_left h]

/-- Store lookup at the old length returns the appended entry. -/
theorem getD_append_self (l : List ProcessingFrame) (e : ProcessingFrame) :
    (l ++ [e]).getD l.length pfDefault = e := by
  simp [List.getElem?_append_right (Nat.le_refl l.length)]

/-- Unfolding of `submitStep` when the request FIFO is non-empty. -/
theorem submitStep_cons (s : OVState) (f : AVFrame) (rc : RequestCtx)
    (rest : List RequestCtx) (hq : s.reqq = rc :: rest) :
    submitStep s f =
      (if rc.cnt + 1 = s.batch_size then
        some { s with entries := s.entries ++ [⟨f, none, false⟩],
                      processing := s.processing ++ [s.entries.length],
                      reqq := rest,
                      dispatched := s.dispatched ++
                        [⟨rc.arr.set rc.cnt (some s.entries.length), rc.cnt + 1⟩] }
      else
        some { s with entries := s.entries ++ [⟨f, none, false⟩],
                      processing := s.processing ++ [s.entries.length],
                      reqq := ⟨rc.arr.set rc.cnt (some s.entries.length),
                               rc.cnt + 1⟩ :: rest }) := by
  simp only [submitStep, hq]

/-- Submit preserves the invariant. -/
theorem ovInv_submit (infer : AVFrame → AVFrame) (bs : Nat) (s s2 : OVState)
    (f : AVFrame) (inv : OVInv infer bs s) (h : submitStep s f = some s2) :
    OVInv infer bs s2 := by
  cases hq : s.reqq with
  | nil => rw [submitStep, hq] at h; cases h
  | cons rc rest =>
      rw [submitStep_cons s f rc rest hq] at h
      obtain ⟨i1, i2, i3, i4, i5, i6, i7, i8, i9, i10, i11, i12⟩ := inv
      have hrc := i8 rc (by rw [hq]; exact List.mem_cons_self rc rest)
      have hfill : packedIds ⟨rc.arr.set rc.cnt (some s.entries.length), rc.cnt + 1⟩ =
          packedIds rc ++ [s.entries.length] :=
        packedIds_fill rc s.entries.length (by rw [hrc.1]; exact hrc.2)
      have hd_le : drainedCount s ≤ s.entries.length := Nat.sub_le _ _
      have hdp : drainedCount s + s.processing.length = s.entries.length := by
        have := i3; unfold drainedCount; omega
      -- facts about the extended store and list
      have hgl : ∀ i < s.entries.length,
          (s.entries ++ [(⟨f, none, false⟩ : ProcessingFrame)]).getD i pfDefault =
            s.entries.getD i pfDefault :=
        fun i hi => getD_append_left s.entries _ i hi
      have hgn : (s.entries ++ [(⟨f, none, false⟩ : ProcessingFrame)]).getD
          s.entries.length pfDefault = ⟨f, none, false⟩ :=
        getD_append_self s.entries _
      have hAs : allPacked s = packedIds rc ++
          ((rest ++ s.dispatched).map packedIds).flatten := by
        simp [allPacked, hq]
      have hnmem : s.entries.length ∉ allPacked s := fun hmem =>
        absurd (i10 _ hmem) (by omega)
      -- common invariant pieces, for either resulting state
      have main : ∀ rq2 dp2 : List RequestCtx,
          s2 = { s with entries := s.entries ++ [⟨f, none, false⟩],
                        processing := s.processing ++ [s.entries.length],
                        reqq := rq2, dispatched := dp2 } →
          List.Perm ((( rq2 ++ dp2).map packedIds).flatten)
            (s.entries.length :: allPacked s) →
          (∀ rc2 ∈ rq2, rc2.arr.length = bs ∧ rc2.cnt < bs) →
          (∀ rc2 ∈ dp2, rc2.arr.length = bs ∧ rc2.cnt ≤ bs) →
          OVInv infer bs s2 := by
        intro rq2 dp2 hs2 hAP hrq hdp2
        subst hs2
        have hdc : drainedCount { s with
            entries := s.entries ++ [⟨f, none, false⟩],
            processing := s.processing ++ [s.entries.length],
            reqq := rq2, dispatched := dp2 } = drainedCount s := by
          unfold drainedCount
          simp only [List.length_append, List.length_cons, List.length_nil]
          omega
        refine ⟨i1, i2, ?_, ?_, ?_, ?_, ?_, hrq, hdp2, ?_, ?_, ?_⟩
        · simp only [List.length_append, List.length_cons, List.length_nil]
          omega
        · rw [hdc]
          simp only [List.length_append, List.length_cons, List.length_nil]
          rw [List.range'_1_concat, ← i4, hdp]
        · rw [hdc]
          rw [List.map_congr_left
            (fun i hi => by
              rw [hgl i (by have := List.mem_range.mp hi; omega)])]
          exact i5
        · intro i hi
          rw [hdc] at hi
          rw [hgl i (by omega)]
          exact i6 i hi
        · intro i hi hdone
          simp only [List.length_append, List.length_cons, List.length_nil] at hi
          rcases Nat.lt_or_ge i s.entries.length with hlt | hge
          · rw [hgl i hlt] at hdone ⊢
            exact i7 i hlt hdone
          · have hieq : i = s.entries.length := by omega
            rw [hieq, hgn] at hdone
            cases hdone
        · intro id hid
          have := hAP.mem_iff.mp hid
          simp only [List.length_append, List.length_cons, List.length_nil]
          rcases List.mem_cons.mp this with rfl | hmem
          · omega
          · have := i10 id hmem; omega
        · exact ((i11.cons hnmem).perm hAP.symm)
        · intro id hid
          rcases List.mem_cons.mp (hAP.mem_iff.mp hid) with rfl | hmem
          · rw [hdc, hgn]
            exact ⟨hd_le, rfl⟩
          · have hp := i12 id hmem
            have hlt := i10 id hmem
            rw [hdc, hgl id hlt]
            exact hp
      by_cases hif : rc.cnt + 1 = s.batch_size
      · rw [if_pos hif] at h
        obtain rfl := (Option.some.inj h).symm
        refine main rest
          (s.dispatched ++ [⟨rc.arr.set rc.cnt (some s.entries.length), rc.cnt + 1⟩])
          rfl ?_ ?_ ?_
        · -- flatten perm: move the filled slot's packed list around
          have hstep1 : List.Perm
              (rest ++ (s.dispatched ++
                [(⟨rc.arr.set rc.cnt (some s.entries.length), rc.cnt + 1⟩ : RequestCtx)]))
              ((⟨rc.arr.set rc.cnt (some s.entries.length), rc.cnt + 1⟩ : RequestCtx) ::
                (rest ++ s.dispatched)) := by
            refine List.Perm.trans List.perm_append_comm ?_
            refine List.Perm.trans
              (List.Perm.append_right rest
                (List.perm_append_singleton _ s.dispatched)) ?_
            exact List.Perm.cons _ List.perm_append_comm
          refine (List.Perm.flatten (hstep1.map packedIds)).trans ?_
          simp only [List.map_cons, List.flatten_cons, hfill, hAs]
          rw [List.append_assoc (packedIds rc) [s.entries.length]]
          exact List.perm_middle
        · intro rc2 hrc2
          exact i8 rc2 (by rw [hq]; exact List.mem_cons_of_mem rc hrc2)
        · intro rc2 hrc2
          rcases List.mem_append.mp hrc2 with hdl | hsg
          · exact i9 rc2 hdl
          · rw [List.mem_singleton.mp hsg]
            constructor
            · rw [List.length_set]; exact hrc.1
            · show rc.cnt + 1 ≤ bs
              omega
      · rw [if_neg hif] at h
        obtain rfl := (Option.some.inj h).symm
        refine main
          (⟨rc.arr.set rc.cnt (some s.entries.length), rc.cnt + 1⟩ :: rest)
          s.dispatched rfl ?_ ?_ ?_
        · simp only [List.cons_append, List.map_cons, List.flatten_cons, hfill, hAs]
          rw [List.append_assoc (packedIds rc) [s.entries.length]]
          exact List.perm_middle
        · intro rc2 hrc2
          rcases List.mem_cons.mp hrc2 with rfl | hmem
          · constructor
            · rw [List.length_set]; exact hrc.1
            · show rc.cnt + 1 < bs
              have h2 := hrc.2
              omega
          · exact i8 rc2 (by rw [hq]; exact List.mem_cons_of_mem rc hmem)
        · exact i9

/-- Unfolding of `callbackStep` when slot `i` is dispatched. -/
theorem callbackStep_eq (infer : AVFrame → AVFrame) (s : OVState) (i : Nat)
    (rc : RequestCtx) (hd : s.dispatched[i]? = some rc) :
    callbackStep infer s i =
      some { s with
        entries := markBatch infer s.entries (packedIds rc),
        processing := (drainLoop (markBatch infer s.entries (packedIds rc))
          s.processing s.processed).1,
        processed := (drainLoop (markBatch infer s.entries (packedIds rc))
          s.processing s.processed).2,
        reqq := s.reqq ++ [⟨rc.arr, 0⟩],
        dispatched := s.dispatched.eraseIdx i } := by
  simp only [callbackStep, hd]

/-- The completion callback preserves the invariant. -/
theorem ovInv_callback (infer : AVFrame → AVFrame) (bs : Nat) (s s2 : OVState)
    (i : Nat) (inv : OVInv infer bs s) (h : callbackStep infer s i = some s2) :
    OVInv infer bs s2 := by
  cases hd : s.dispatched[i]? with
  | none =>
      simp only [callbackStep, hd] at h
      exact Option.noConfusion h
  | some rc =>
      rw [callbackStep_eq infer s i rc hd] at h
      obtain ⟨i1, i2, i3, i4, i5, i6, i7, i8, i9, i10, i11, i12⟩ := inv
      have hrcmem : rc ∈ s.dispatched := List.getElem?_mem hd
      have hdp : drainedCount s + s.processing.length = s.entries.length := by
        have := i3; unfold drainedCount; omega
      -- split the packed multiset at slot `rc`
      have hdisp_perm : List.Perm s.dispatched (rc :: s.dispatched.eraseIdx i) :=
        getElem?_perm_eraseIdx s.dispatched i rc hd
      have hA : List.Perm (allPacked s)
          ((s.reqq.map packedIds).flatten ++
            (packedIds rc ++ ((s.dispatched.eraseIdx i).map packedIds).flatten)) := by
        unfold allPacked
        rw [List.map_append, List.flatten_append]
        refine List.Perm.append_left _ ?_
        have hperm := List.Perm.flatten (hdisp_perm.map packedIds)
        simpa using hperm
      have hnodup2 : ((s.reqq.map packedIds).flatten ++
          (packedIds rc ++ ((s.dispatched.eraseIdx i).map packedIds).flatten)).Nodup :=
        i11.perm hA
      have hpk_nodup : (packedIds rc).Nodup :=
        ((List.nodup_append.mp ((List.nodup_append.mp hnodup2).2.1)).1)
      have hpk_mem : ∀ id ∈ packedIds rc, id ∈ allPacked s := by
        intro id hid
        exact hA.mem_iff.mpr (List.mem_append_right _ (List.mem_append_left _ hid))
      have hpk_lt : ∀ id ∈ packedIds rc, id < s.entries.length :=
        fun id hid => i10 id (hpk_mem id hid)
      have hpk_ge : ∀ id ∈ packedIds rc, drainedCount s ≤ id :=
        fun id hid => (i12 id (hpk_mem id hid)).1
      -- the marked store
      have hlen2 : (markBatch infer s.entries (packedIds rc)).length =
          s.entries.length := markBatch_length infer (packedIds rc) s.entries
      have hE1 : ∀ j, j ∉ packedIds rc →
          (markBatch infer s.entries (packedIds rc)).getD j pfDefault =
            s.entries.getD j pfDefault :=
        fun j hj => markBatch_getD_not_mem infer (packedIds rc) s.entries j hj
      have hE2 : ∀ j ∈ packedIds rc,
          (markBatch infer s.entries (packedIds rc)).getD j pfDefault =
            ⟨(s.entries.getD j pfDefault).frame_in,
             some (infer ((s.entries.getD j pfDefault).frame_in)), true⟩ :=
        fun j hj => markBatch_getD_mem infer (packedIds rc) s.entries j
          hpk_nodup hj (hpk_lt j hj)
      -- drain characterisation
      obtain ⟨k, hk, hdr, hkdone⟩ :=
        drainLoop_range' (markBatch infer s.entries (packedIds rc))
          s.processing.length (drainedCount s) s.processed
      rw [← i4] at hdr
      rw [hdr] at h
      dsimp only at h
      obtain rfl := (Option.some.inj h).symm
      -- done flags are monotone under marking
      have hdone_mono : ∀ j, (s.entries.getD j pfDefault).inference_done = true →
          ((markBatch infer s.entries (packedIds rc)).getD j pfDefault) =
            s.entries.getD j pfDefault := by
        intro j hdone
        refine hE1 j (fun hjin => ?_)
        have hnd := (i12 j (hpk_mem j hjin)).2
        rw [hdone] at hnd
        cases hnd
      -- the new drained count
      have hdcX : drainedCount { s with
          entries := markBatch infer s.entries (packedIds rc),
          processing := List.range' (drainedCount s + k) (s.processing.length - k),
          processed := s.processed ++ (List.range' (drainedCount s) k).map
            (fun j => ((markBatch infer s.entries (packedIds rc)).getD j
              pfDefault).frame_out),
          reqq := s.reqq ++ [⟨rc.arr, 0⟩],
          dispatched := s.dispatched.eraseIdx i } = drainedCount s + k := by
        unfold drainedCount
        dsimp only
        rw [hlen2, List.length_range']
        omega
      -- the new packed multiset
      have hA2 : allPacked { s with
          entries := markBatch infer s.entries (packedIds rc),
          processing := List.range' (drainedCount s + k) (s.processing.length - k),
          processed := s.processed ++ (List.range' (drainedCount s) k).map
            (fun j => ((markBatch infer s.entries (packedIds rc)).getD j
              pfDefault).frame_out),
          reqq := s.reqq ++ [⟨rc.arr, 0⟩],
          dispatched := s.dispatched.eraseIdx i } =
          (s.reqq.map packedIds).flatten ++
            ((s.dispatched.eraseIdx i).map packedIds).flatten := by
        simp [allPacked, packedIds_zero]
      have hsub : (((s.reqq.map packedIds).flatten ++
          ((s.dispatched.eraseIdx i).map packedIds).flatten)).Sublist
          ((s.reqq.map packedIds).flatten ++
            (packedIds rc ++ ((s.dispatched.eraseIdx i).map packedIds).flatten)) :=
        List.Sublist.append_left
          (List.sublist_append_right (packedIds rc) _) _
      have hmem2 : ∀ id, id ∈ (s.reqq.map packedIds).flatten ++
          ((s.dispatched.eraseIdx i).map packedIds).flatten →
          id ∈ allPacked s := fun id hid => hA.mem_iff.mpr (hsub.subset hid)
      have hnotpk : ∀ id, id ∈ (s.reqq.map packedIds).flatten ++
          ((s.dispatched.eraseIdx i).map packedIds).flatten →
          id ∉ packedIds rc := by
        intro id hid hpk
        rcases List.mem_append.mp hid with hq | he
        · exact (List.disjoint_of_nodup_append hnodup2) hq
            (List.mem_append_left _ hpk)
        · exact (List.disjoint_of_nodup_append
            (List.nodup_append.mp hnodup2).2.1) hpk he
      refine ⟨i1, i2, ?_, ?_, ?_, ?_, ?_, ?_, ?_, ?_, ?_, ?_⟩
      · -- proc_le
        dsimp only
        rw [hlen2, List.length_range']
        omega
      · -- proc_ids
        rw [hdcX]
        dsimp only
        rw [List.length_range']
      · -- out_eq
        rw [hdcX]
        dsimp only
        have hmap0 : (List.range (drainedCount s)).map
            (fun j => ((markBatch infer s.entries (packedIds rc)).getD j
              pfDefault).frame_out) =
            (List.range (drainedCount s)).map
            (fun j => (s.entries.getD j pfDefault).frame_out) := by
          refine List.map_congr_left (fun j hj => ?_)
          have hjd : j < drainedCount s := List.mem_range.mp hj
          rw [hE1 j (fun hjin => absurd (hpk_ge j hjin) (by omega))]
        rw [← List.append_assoc, i5, ← hmap0]
        rw [List.range_eq_range', List.range_eq_range',
          Nat.add_comm (drainedCount s) k,
          ← List.range'_append_1 0 (drainedCount s) k, List.map_append]
        simp
      · -- drained_done
        rw [hdcX]
        dsimp only
        intro j hj
        rcases Nat.lt_or_ge j (drainedCount s) with hlt | hge
        · rw [hdone_mono j (i6 j hlt)]
          exact i6 j hlt
        · exact hkdone j hge hj
      · -- done_out
        dsimp only
        rw [hlen2]
        intro j hj hdone
        by_cases hjin : j ∈ packedIds rc
        · rw [hE2 j hjin]
        · rw [hE1 j hjin] at hdone ⊢
          exact i7 j hj hdone
      · -- reqq_slots
        dsimp only
        intro rc2 hrc2
        rcases List.mem_append.mp hrc2 with hq | hsg
        · exact i8 rc2 hq
        · rw [List.mem_singleton.mp hsg]
          exact ⟨(i9 rc hrcmem).1, i1⟩
      · -- disp_slots
        dsimp only
        intro rc2 hrc2
        exact i9 rc2 (List.mem_of_mem_eraseIdx hrc2)
      · -- packed_lt
        rw [hA2]
        dsimp only
        rw [hlen2]
        intro id hid
        exact i10 id (hmem2 id hid)
      · -- packed_nodup
        rw [hA2]
        exact List.Nodup.sublist hsub hnodup2
      · -- packed_pending
        rw [hA2, hdcX]
        dsimp only
        intro id hid
        have hop := i12 id (hmem2 id hid)
        have hnp := hnotpk id hid
        constructor
        · by_contra hltdk
          have hge : drainedCount s ≤ id := hop.1
          have hdone2 := hkdone id hge (by omega)
          rw [hE1 id hnp] at hdone2
          rw [hop.2] at hdone2
          cases hdone2
        · rw [hE1 id hnp]
          exact hop.2

/-- Every reachable state satisfies the invariant. -/
theorem ovInv_reach (infer : AVFrame → AVFrame) (nireq bs : Nat) (s : OVState)
    (hbs : 1 ≤ bs) (hr : OVReach infer nireq bs s) : OVInv infer bs s := by
  induction hr with
  | init => exact ovInv_init infer nireq bs hbs
  | @step s1 e s2 hr hstep ih =>
      cases e with
      | submit f => exact ovInv_submit infer bs s1 s2 f ih hstep
      | callback i => exact ovInv_callback infer bs s1 s2 i ih hstep
      | flush => exact ovInv_flush infer bs s1 s2 ih hstep
      | poll =>
          simp only [ovStep] at hstep
          obtain rfl := Option.some.inj hstep
          exact ovInv_poll infer bs s1 ih

/-- In every reachable state, the frames handed back by poll followed by
the frames still queued as processed are exactly the images under the
network of the first `drainedCount` submitted frames, in submission
order. -/
theorem ov_outputs_eq (infer : AVFrame → AVFrame) (nireq bs : Nat)
    (s : OVState) (hbs : 1 ≤ bs) (hr : OVReach infer nireq bs s) :
    s.delivered ++ s.processed =
      ((s.entries.map (fun e => e.frame_in)).take (drainedCount s)).map
        (fun f => some (infer f)) := by
  obtain ⟨i1, i2, i3, i4, i5, i6, i7, i8, i9, i10, i11, i12⟩ :=
    ovInv_reach infer nireq bs s hbs hr
  rw [i5]
  have hd_le : drainedCount s ≤ s.entries.length := Nat.sub_le _ _
  have hcong : ∀ j ∈ List.range (drainedCount s),
      (s.entries.getD j pfDefault).frame_out =
        some (infer ((s.entries.getD j pfDefault).frame_in)) := by
    intro j hj
    have hjd := List.mem_range.mp hj
    exact i7 j (by omega) (i6 j hjd)
  rw [List.map_congr_left hcong,
    map_range_getD s.entries (drainedCount s) hd_le
      (fun e => some (infer e.frame_in))]
  simp only [List.map_take, List.map_map]
  rfl

/-! ### Claim theorems about the asynchronous engine, with concrete traces -/

/-- C1.  Output order equals submission order, independently of the order
in which backend completion callbacks fire: in every reachable state of the
engine — under any interleaving of submits, callbacks (the drain loop
removes entries only from the head of the ordered list and stops at the
first entry not done), flushes and polls — the frames already returned by
poll (`delivered`) followed by the frames still queued in
`processed_frames` are exactly the outputs of the first `drainedCount`
submitted frames, in submission order. -/
theorem poll_outputs_in_submission_order (infer : AVFrame → AVFrame)
    (nireq bs : Nat) (s : OVState) (hbs : 1 ≤ bs)
    (hr : OVReach infer nireq bs s) :
    s.delivered ++ s.processed =
      ((s.entries.map (fun e => e.frame_in)).take (drainedCount s)).map
        (fun f => some (infer f)) :=
  ov_outputs_eq infer nireq bs s hbs hr

/-- Concrete network for the witness traces: shift the pts by 100. -/
def inferW : AVFrame → AVFrame := fun f => ⟨f.pts + 100, f.payload⟩

/-- Second sample frame. -/
def frameB : AVFrame := ⟨11, 2⟩

/-- Third sample frame. -/
def frameC : AVFrame := ⟨12, 3⟩

/-- Witness trace, initial state: `nireq = 1`, `batch_size = 2`. -/
def wSt0 : OVState := ovInit 1 2

/-- Witness trace after submitting `frameA` (slot half full, pushed to the
FIFO front). -/
def wSt1 : OVState :=
  { entries := [⟨frameA, none, false⟩], processing := [0], processed := [],
    delivered := [], reqq := [⟨[some 0, none], 1⟩], dispatched := [],
    batch_size := 2 }

/-- Witness trace after submitting `frameB` (batch full, slot dispatched). -/
def wSt2 : OVState :=
  { entries := [⟨frameA, none, false⟩, ⟨frameB, none, false⟩],
    processing := [0, 1], processed := [], delivered := [], reqq := [],
    dispatched := [⟨[some 0, some 1], 2⟩], batch_size := 2 }

/-- Witness trace after the completion callback fired (both entries marked
done and drained, slot reset and returned to the FIFO tail). -/
def wSt3 : OVState :=
  { entries := [⟨frameA, some ⟨110, 1⟩, true⟩, ⟨frameB, some ⟨111, 2⟩, true⟩],
    processing := [], processed := [some ⟨110, 1⟩, some ⟨111, 2⟩],
    delivered := [], reqq := [⟨[some 0, some 1], 0⟩], dispatched := [],
    batch_size := 2 }

/-- Witness trace after one poll. -/
def wSt4 : OVState :=
  { entries := [⟨frameA, some ⟨110, 1⟩, true⟩, ⟨frameB, some ⟨111, 2⟩, true⟩],
    processing := [], processed := [some ⟨111, 2⟩],
    delivered := [some ⟨110, 1⟩], reqq := [⟨[some 0, some 1], 0⟩],
    dispatched := [], batch_size := 2 }

/-- Reachability of the witness trace, step 1. -/
theorem wReach1 : OVReach inferW 1 2 wSt1 :=
  @OVReach.step inferW 1 2 wSt0 (OVEvent.submit frameA) wSt1
    OVReach.init (by decide)

/-- Reachability of the witness trace, step 2. -/
theorem wReach2 : OVReach inferW 1 2 wSt2 :=
  @OVReach.step inferW 1 2 wSt1 (OVEvent.submit frameB) wSt2
    wReach1 (by decide)

/-- Reachability of the witness trace, step 3. -/
theorem wReach3 : OVReach inferW 1 2 wSt3 :=
  @OVReach.step inferW 1 2 wSt2 (OVEvent.callback 0) wSt3
    wReach2 (by decide)

/-- Reachability of the witness trace, step 4. -/
theorem wReach4 : OVReach inferW 1 2 wSt4 :=
  @OVReach.step inferW 1 2 wSt3 OVEvent.poll wSt4
    wReach3 (by decide)

/-- C1 witness: the order theorem instantiated on the concrete trace
(submit A, submit B, callback, poll). -/
theorem poll_outputs_in_submission_order_witness :
    wSt4.delivered ++ wSt4.processed =
      ((wSt4.entries.map (fun e => e.frame_in)).take (drainedCount wSt4)).map
        (fun f => some (inferW f)) :=
  poll_outputs_in_submission_order inferW 1 2 wSt4 (by decide) wReach4

/-- C2.  The batching state machine of the request slots, in every
reachable state: (a) every slot, queued or dispatched, packs exactly
`num_processing_frames` entries in an array of capacity `batch_size`, with
the counter below `batch_size` while the slot is in the FIFO and at most
`batch_size` once dispatched; (b) a submit fills the head slot at the batch
index equal to its counter (the packed list is extended at position `cnt`),
dispatches the slot exactly when the incremented counter equals
`batch_size`, and pushes it back to the FIFO front otherwise; (c) the
completion callback resets the counter to 0 before pushing the slot to the
FIFO tail. -/
theorem request_slot_state_machine (infer : AVFrame → AVFrame)
    (nireq bs : Nat) (s : OVState) (hbs : 1 ≤ bs)
    (hr : OVReach infer nireq bs s) :
    (∀ rc ∈ s.reqq ++ s.dispatched,
        (packedIds rc).length = rc.cnt ∧ rc.arr.length = bs ∧ rc.cnt ≤ bs ∧
        (rc ∈ s.reqq → rc.cnt < bs)) ∧
    (∀ (f : AVFrame) (rc : RequestCtx) (rest : List RequestCtx),
        s.reqq = rc :: rest →
        packedIds ⟨rc.arr.set rc.cnt (some s.entries.length), rc.cnt + 1⟩ =
          packedIds rc ++ [s.entries.length] ∧
        (rc.cnt + 1 = bs →
          submitStep s f = some { s with
            entries := s.entries ++ [⟨f, none, false⟩],
            processing := s.processing ++ [s.entries.length],
            reqq := rest,
            dispatched := s.dispatched ++
              [⟨rc.arr.set rc.cnt (some s.entries.length), rc.cnt + 1⟩] }) ∧
        (rc.cnt + 1 ≠ bs →
          submitStep s f = some { s with
            entries := s.entries ++ [⟨f, none, false⟩],
            processing := s.processing ++ [s.entries.length],
            reqq := ⟨rc.arr.set rc.cnt (some s.entries.length),
                     rc.cnt + 1⟩ :: rest })) ∧
    (∀ (i : Nat) (rc : RequestCtx), s.dispatched[i]? = some rc →
        ∃ s2, callbackStep infer s i = some s2 ∧
          s2.reqq = s.reqq ++ [⟨rc.arr, 0⟩] ∧ packedIds ⟨rc.arr, 0⟩ = []) := by
  obtain ⟨i1, i2, i3, i4, i5, i6, i7, i8, i9, i10, i11, i12⟩ :=
    ovInv_reach infer nireq bs s hbs hr
  refine ⟨?_, ?_, ?_⟩
  · intro rc hm
    rcases List.mem_append.mp hm with hq | hd
    · have h := i8 rc hq
      exact ⟨packedIds_length rc, h.1, Nat.le_of_lt h.2, fun _ => h.2⟩
    · have h := i9 rc hd
      refine ⟨packedIds_length rc, h.1, h.2, fun hq => (i8 rc hq).2⟩
  · intro f rc rest hq
    have hrc := i8 rc (by rw [hq]; exact List.mem_cons_self rc rest)
    refine ⟨packedIds_fill rc s.entries.length
      (by rw [hrc.1]; exact hrc.2), ?_, ?_⟩
    · intro heq
      rw [submitStep_cons s f rc rest hq, if_pos (by rw [i2]; exact heq)]
    · intro hne
      rw [submitStep_cons s f rc rest hq, if_neg (by rw [i2]; exact hne)]
  · intro i rc hd
    exact ⟨_, callbackStep_eq infer s i rc hd, rfl, packedIds_zero rc.arr⟩

/-- C2 witness: the state-machine theorem instantiated on the concrete
half-full slot of the witness trace, showing the next submit fills batch
index 1 (= the counter) and dispatches. -/
theorem request_slot_state_machine_witness :
    packedIds ⟨[some 0, some 1], 2⟩ = packedIds ⟨[some 0, none], 1⟩ ++ [1] :=
  ((request_slot_state_machine inferW 1 2 wSt1 (by decide) wReach1).2.1
    frameC ⟨[some 0, none], 1⟩ [] rfl).1

/-- Engine state in which every request slot is dispatched (`nireq = 1`,
`batch_size = 1`, one frame submitted, callback not yet fired). -/
def ovCexState : OVState :=
  { entries := [⟨frameA, none, false⟩], processing := [0], processed := [],
    delivered := [], reqq := [], dispatched := [⟨[some 0], 1⟩],
    batch_size := 1 }

/-- C8 counterexample.  A reachable state in which submit cannot proceed:
after a single submit with `nireq = 1`, `batch_size = 1`, all request slots
are dispatched and the next `ff_dnn_execute_model_async_batch_ov` blocks in
`SafeQueuePop` on the empty request FIFO (the submit step is disabled),
refuting the claim that submit returns without waiting regardless of how
many slots are dispatched. -/
theorem submit_blocks_cex :
    OVReach inferW 1 1 ovCexState ∧ submitStep ovCexState frameB = none :=
  ⟨@OVReach.step inferW 1 1 (ovInit 1 1) (OVEvent.submit frameA) ovCexState
      OVReach.init (by decide),
   rfl⟩

/-- C8 amended.  Submit returns without waiting exactly when a request slot
is available: if the request FIFO is non-empty the submit step succeeds
immediately, and if every slot is dispatched (FIFO empty) the submit blocks
on the FIFO's blocking pop — modelled as the step being disabled. -/
theorem submit_blocks_iff_pool_empty (s : OVState) (f : AVFrame) :
    (s.reqq ≠ [] → (submitStep s f).isSome = true) ∧
    (s.reqq = [] → submitStep s f = none) := by
  constructor
  · intro hne
    cases hq : s.reqq with
    | nil => exact absurd hq hne
    | cons rc rest =>
        rw [submitStep_cons s f rc rest hq]
        split <;> rfl
  · intro hq
    simp only [submitStep, hq]

/-- C8 witness: both sides of the amended theorem at concrete states — an
idle engine accepts the submit, the all-dispatched engine does not. -/
theorem submit_blocks_iff_pool_empty_witness :
    (submitStep wSt0 frameA).isSome = true ∧
    submitStep ovCexState frameC = none :=
  ⟨(submit_blocks_iff_pool_empty wSt0 frameA).1 (by decide),
   (submit_blocks_iff_pool_empty ovCexState frameC).2 rfl⟩

/-! ### The synchronous reference pipeline (C9) -/

/-- The synchronous branch of `ff_dnn_interface_send_frame`
(`dnn_interface.c:248-266`): `execute_model` runs the network synchronously
on the frame's preprocessed blob and `post_proc` builds the output frame,
which is pushed directly onto `processed_frames`. -/
def syncSendFrame (infer : AVFrame → AVFrame) (st : BaseState) (f : AVFrame) :
    BaseState :=
  { st with processed := st.processed ++ [some (infer f)] }

/-- The synchronous pipeline applied to a whole input sequence. -/
def syncRun (infer : AVFrame → AVFrame) (frames : List AVFrame) : BaseState :=
  frames.foldl (syncSendFrame infer) baseInit

/-- The synchronous pipeline yields one output per input, in order. -/
theorem syncRun_processed (infer : AVFrame → AVFrame) (frames : List AVFrame) :
    (syncRun infer frames).processed = frames.map (fun f => some (infer f)) := by
  suffices h : ∀ st : BaseState,
      (frames.foldl (syncSendFrame infer) st).processed =
        st.processed ++ frames.map (fun f => some (infer f)) by
    simpa [syncRun, baseInit] using h baseInit
  induction frames with
  | nil => intro st; simp
  | cons f fs ih =>
      intro st
      rw [List.foldl_cons, ih]
      simp [syncSendFrame]

/-- C9.  The asynchronous batched pipeline refines the synchronous one:
for every `nireq ≥ 1` and `batch_size ≥ 1`, in every reachable engine state
in which all in-flight entries have been drained (as after a completed
flush), the output sequence — frames already handed back by poll followed
by the frames still queued — equals the output of the synchronous
single-frame pipeline on the same submitted frames: same frames, same
order, for the same (deterministic) network. -/
theorem async_batch_refines_sync (infer : AVFrame → AVFrame)
    (nireq bs : Nat) (s : OVState) (hn : 1 ≤ nireq) (hbs : 1 ≤ bs)
    (hr : OVReach infer nireq bs s) (hdone : s.processing = []) :
    s.delivered ++ s.processed =
      (syncRun infer (s.entries.map (fun e => e.frame_in))).processed := by
  rw [syncRun_processed]
  have h := ov_outputs_eq infer nireq bs s hbs hr
  have hdc : drainedCount s = s.entries.length := by
    unfold drainedCount
    rw [hdone]
    simp
  rw [h, hdc,
    List.take_of_length_le (Nat.le_of_eq (List.length_map s.entries _))]

/-- C9 witness: the refinement theorem on the concrete trace (two frames
batched into one request, callback fired, one poll): the async outputs
equal the sync pipeline's outputs. -/
theorem async_batch_refines_sync_witness :
    wSt4.delivered ++ wSt4.processed =
      (syncRun inferW (wSt4.entries.map (fun e => e.frame_in))).processed :=
  async_batch_refines_sync inferW 1 2 wSt4 (by decide) (by decide) wReach4
    (by decide)

end FfmpegDnn
